import Mathlib

/-!
Verification of the page-collection model and merge/export algorithm of the
pdfmerger web application (src/src/main.js), shallowly embedded in Lean 4.

The mutable JS state is

  let pages = [];            -- ordered list of page records
  let selectedPages = new Set();   -- set of selected record ids

Record ids are produced by crypto.randomUUID(); we model them as natural
numbers drawn from a counter.  Byte buffers (Uint8Array) are modelled as
List Nat.  A record's pdfJsPage render handle plays no role in any claim
and is omitted.
-/

/-- One element of the JS `pages` array: the object pushed in loadPDFs
(src/src/main.js lines 109-116), minus the render handle. -/
structure PageRecord where
  id : Nat
  sourceFile : String
  sourcePageIndex : Nat
  pdfBytes : List Nat
  rotation : Nat
deriving DecidableEq, Repr

/-- The application state: the `pages` array plus the `selectedPages` set. -/
structure AppState where
  pages : List PageRecord
  selectedPages : Finset Nat
deriving DecidableEq

/-- toggleSelection (src/src/main.js lines 254-263): flips membership of
`pageId` in selectedPages.  The source performs no liveness check on the id;
the DOM refresh calls are omitted. -/
def toggleSelection (pageId : Nat) (s : AppState) : AppState :=
  if pageId ∈ s.selectedPages then
    ⟨s.pages, s.selectedPages.erase pageId⟩
  else
    ⟨s.pages, insert pageId s.selectedPages⟩

/-- rotateSelected (src/src/main.js lines 288-297): the source filters the
selected records and mutates each one's rotation field in place to
(rotation + 90) % 360.  Since records are distinct objects, the in-place
mutation is the positional map below; the selection set is untouched. -/
def rotateSelected (s : AppState) : AppState :=
  ⟨s.pages.map (fun p =>
      if p.id ∈ s.selectedPages then
        ⟨p.id, p.sourceFile, p.sourcePageIndex, p.pdfBytes, (p.rotation + 90) % 360⟩
      else p),
   s.selectedPages⟩

/-- deleteSelected (src/src/main.js lines 299-310):
`pages = pages.filter(p => !selectedPages.has(p.id)); selectedPages.clear();`.
The filter reads the selection before it is cleared. -/
def deleteSelected (s : AppState) : AppState :=
  ⟨s.pages.filter (fun p => p.id ∉ s.selectedPages), ∅⟩

/-- The operations quantified over in the selection-invariant claim. -/
inductive Op where
  | toggle (id : Nat)
  | deleteSel
deriving DecidableEq, Repr

/-- Apply one operation to the state. -/
def applyOp (s : AppState) : Op → AppState
  | Op.toggle i => toggleSelection i s
  | Op.deleteSel => deleteSelected s

/-- Apply a sequence of operations from left to right. -/
def applyOps (s : AppState) (ops : List Op) : AppState :=
  ops.foldl applyOp s

/-- The dangling-selection invariant: every selected id belongs to a record
currently in the pages list. -/
def selectionInvariant (s : AppState) : Prop :=
  ∀ i ∈ s.selectedPages, ∃ p ∈ s.pages, p.id = i

instance (s : AppState) : Decidable (selectionInvariant s) := by
  unfold selectionInvariant; infer_instance

/-- An id is live when some record in the pages list carries it. -/
def liveId (s : AppState) (i : Nat) : Prop :=
  ∃ p ∈ s.pages, p.id = i

instance (s : AppState) (i : Nat) : Decidable (liveId s i) := by
  unfold liveId; infer_instance

/-- Every toggle in the sequence names an id that is live at the moment the
toggle is applied (the discipline the application's call sites follow). -/
def liveOps : AppState → List Op → Prop
  | _, [] => True
  | s, Op.toggle i :: rest => liveId s i ∧ liveOps (applyOp s (Op.toggle i)) rest
  | s, Op.deleteSel :: rest => liveOps (applyOp s Op.deleteSel) rest

lemma toggleSelection_pages (i : Nat) (s : AppState) :
    (toggleSelection i s).pages = s.pages := by
  unfold toggleSelection; split <;> rfl

lemma selectionInvariant_toggle (s : AppState) (i : Nat)
    (hs : selectionInvariant s) (hi : liveId s i) :
    selectionInvariant (toggleSelection i s) := by
  intro j hj
  rw [toggleSelection_pages]
  unfold toggleSelection at hj
  split at hj
  · exact hs j (Finset.mem_of_mem_erase hj)
  · rcases Finset.mem_insert.mp hj with h | h
    · exact h ▸ hi
    · exact hs j h

lemma selectionInvariant_delete (s : AppState) :
    selectionInvariant (deleteSelected s) := by
  intro j hj
  simp [deleteSelected] at hj

/-- Claim C4 (counterexample): the invariant "SelectionSet is a subset of the
live ids" does not survive arbitrary ToggleSelect arguments.  From the empty
startup state (trivially reachable), ToggleSelect 0 adds the dead id 0 to the
selection while the collection stays empty. -/
theorem C4_counterexample :
    ¬ selectionInvariant (applyOps ⟨[], ∅⟩ [Op.toggle 0]) := by
  decide

/-- Claim C4 (amended): toggleSelection performs no liveness check, so the
invariant holds only for sequences in which every ToggleSelect argument is
live at the time of the call — exactly what the application's call sites
guarantee.  Under that discipline, any sequence of ToggleSelect and
DeleteSelected operations preserves the invariant (DeleteSelected always
clears the selection, re-establishing it unconditionally). -/
theorem C4_amended_selection_invariant (ops : List Op) :
    ∀ (s : AppState), selectionInvariant s → liveOps s ops →
      selectionInvariant (applyOps s ops) := by
  induction ops with
  | nil => intro s hs _; exact hs
  | cons op rest ih =>
    intro s hs hlive
    cases op with
    | toggle i =>
      exact ih (applyOp s (Op.toggle i))
        (selectionInvariant_toggle s i hs hlive.1) hlive.2
    | deleteSel =>
      exact ih (applyOp s Op.deleteSel)
        (selectionInvariant_delete s) hlive

/-- Witness for C4_amended_selection_invariant at a concrete state and
operation sequence. -/
theorem C4_amended_witness :
    selectionInvariant
      (applyOps ⟨[⟨5, "a", 0, [1], 0⟩], ∅⟩ [Op.toggle 5, Op.deleteSel]) :=
  C4_amended_selection_invariant [Op.toggle 5, Op.deleteSel]
    ⟨[⟨5, "a", 0, [1], 0⟩], ∅⟩ (by decide) ⟨by decide, trivial⟩

/-- Claim C5 (counterexample): with the collection empty, the id 7 is not
live, yet ToggleSelect 7 changes the SelectionSet (it adds 7), so the call is
not a silent no-op as the claim states. -/
theorem C5_counterexample :
    ¬ liveId ⟨[], ∅⟩ 7 ∧
      (toggleSelection 7 ⟨[], ∅⟩).selectedPages ≠
        (AppState.mk [] ∅).selectedPages := by
  constructor
  · decide
  · intro h
    have : (7 : Nat) ∈ (toggleSelection 7 ⟨[], ∅⟩).selectedPages := by decide
    rw [h] at this
    simp at this

/-- Claim C5 (amended): toggleSelection never inspects the collection, so for
a non-live id it still leaves the pages list unchanged but flips the id's
membership in the SelectionSet — adding it when absent, removing it when
present.  It is a no-op on the collection only, never on the selection. -/
theorem C5_amended_toggle_dead_id (s : AppState) (i : Nat) (h : ¬ liveId s i) :
    (toggleSelection i s).pages = s.pages ∧
    (i ∉ s.selectedPages →
      (toggleSelection i s).selectedPages = insert i s.selectedPages ∧
      (toggleSelection i s).selectedPages ≠ s.selectedPages) ∧
    (i ∈ s.selectedPages →
      (toggleSelection i s).selectedPages = s.selectedPages.erase i ∧
      (toggleSelection i s).selectedPages ≠ s.selectedPages) := by
  refine ⟨toggleSelection_pages i s, ?_, ?_⟩
  · intro hni
    have hv : (toggleSelection i s).selectedPages = insert i s.selectedPages := by
      simp [toggleSelection, hni]
    refine ⟨hv, ?_⟩
    rw [hv]
    intro he
    exact hni (by rw [← he]; exact Finset.mem_insert_self i _)
  · intro hmem
    have hv : (toggleSelection i s).selectedPages = s.selectedPages.erase i := by
      simp [toggleSelection, hmem]
    refine ⟨hv, ?_⟩
    rw [hv]
    intro he
    exact Finset.not_mem_erase i s.selectedPages (by rw [he]; exact hmem)

/-- Witness for C5_amended_toggle_dead_id at a concrete state and id. -/
theorem C5_amended_witness :
    (toggleSelection 7 ⟨[⟨1, "a", 0, [1], 0⟩], ∅⟩).pages
      = [⟨1, "a", 0, [1], 0⟩] :=
  (C5_amended_toggle_dead_id ⟨[⟨1, "a", 0, [1], 0⟩], ∅⟩ 7 (by decide)).1

/-- Arithmetic core of the rotation 4-cycle: four clockwise quarter turns
restore any rotation value below 360. -/
lemma rotation_four_cycle (r : Nat) (h : r < 360) :
    ((((r + 90) % 360 + 90) % 360 + 90) % 360 + 90) % 360 = r := by
  omega

lemma rotateSelected_selectedPages (s : AppState) :
    (rotateSelected s).selectedPages = s.selectedPages := rfl

/-- Claim C8: a single RotateSelected sets rotation to (rotation + 90) mod
360 exactly for the selected records, and four successive applications
restore the rotation of every record that is selected throughout (the
selection itself is never modified by RotateSelected, so initial membership
is enough).  The rotation field of a live record is always below 360. -/
theorem C8_rotate_selected_cycle (s : AppState) (i : Nat) (p : PageRecord)
    (hp : s.pages[i]? = some p) (hsel : p.id ∈ s.selectedPages)
    (hrot : p.rotation < 360) :
    ((rotateSelected (rotateSelected (rotateSelected (rotateSelected s)))).pages[i]?
        = some p) ∧
    ((rotateSelected s).pages[i]?
        = some ⟨p.id, p.sourceFile, p.sourcePageIndex, p.pdfBytes,
                (p.rotation + 90) % 360⟩) ∧
    (∀ (j : Nat) (q : PageRecord), s.pages[j]? = some q →
        q.id ∉ s.selectedPages → (rotateSelected s).pages[j]? = some q) := by
  obtain ⟨pid, psf, pidx, pb, pr⟩ := p
  refine ⟨?_, ?_, ?_⟩
  · simp only [rotateSelected, List.getElem?_map, hp, Option.map_some']
    simp only [hsel, if_pos]
    simp only [rotation_four_cycle pr hrot]
  · simp [rotateSelected, List.getElem?_map, hp, hsel]
  · intro j q hq hqsel
    simp [rotateSelected, List.getElem?_map, hq, hqsel]

/-- Witness for C8_rotate_selected_cycle at a concrete state. -/
theorem C8_witness :
    ((rotateSelected (rotateSelected (rotateSelected (rotateSelected
        ⟨[⟨1, "a", 0, [1], 90⟩], {1}⟩)))).pages[0]?
      = some ⟨1, "a", 0, [1], 90⟩) :=
  (C8_rotate_selected_cycle ⟨[⟨1, "a", 0, [1], 90⟩], {1}⟩ 0
    ⟨1, "a", 0, [1], 90⟩ (by decide) (by decide) (by decide)).1

/-- Claim C10: RotateSelected only mutates the rotation field of the selected
records — it preserves the selection set, the length (hence order) of the
pages list, every unselected record entirely, and every non-rotation field of
every selected record. -/
theorem C10_rotate_frame (s : AppState) :
    (rotateSelected s).selectedPages = s.selectedPages ∧
    (rotateSelected s).pages.length = s.pages.length ∧
    (∀ (i : Nat) (q : PageRecord), s.pages[i]? = some q →
        q.id ∉ s.selectedPages → (rotateSelected s).pages[i]? = some q) ∧
    (∀ (i : Nat) (q : PageRecord), s.pages[i]? = some q →
        ∃ q2 : PageRecord, (rotateSelected s).pages[i]? = some q2 ∧
          q2.id = q.id ∧ q2.sourceFile = q.sourceFile ∧
          q2.sourcePageIndex = q.sourcePageIndex ∧ q2.pdfBytes = q.pdfBytes) := by
  refine ⟨rfl, by simp [rotateSelected], ?_, ?_⟩
  · intro i q hq hqsel
    simp [rotateSelected, List.getElem?_map, hq, hqsel]
  · intro i q hq
    simp only [rotateSelected, List.getElem?_map, hq, Option.map_some']
    by_cases hqs : q.id ∈ s.selectedPages
    · refine ⟨⟨q.id, q.sourceFile, q.sourcePageIndex, q.pdfBytes,
        (q.rotation + 90) % 360⟩, ?_, rfl, rfl, rfl, rfl⟩
      simp [hqs]
    · exact ⟨q, by simp [hqs], rfl, rfl, rfl, rfl⟩

/-! ## Reordering

reorderPages (src/src/main.js lines 318-322):

  const [movedPage] = pages.splice(fromIndex, 1);
  pages.splice(toIndex, 0, movedPage);

JS Array.prototype.splice clamps a non-negative start index to the array
length; destructuring the (possibly empty) removal result can bind movedPage
to undefined, which the second splice then inserts as an array element.  We
model array entries as Option PageRecord, with none playing the role of
undefined; all reachable states hold only some-entries. -/

/-- A JS array slot: a page record or undefined. -/
abbrev JsPage := Option PageRecord

/-- reorderPages, with the two splice calls written out: removal of one
element at fromIndex (removing nothing when fromIndex is past the end, in
which case movedPage is undefined), then insertion of movedPage at toIndex
clamped to the remaining length. -/
def reorderPages (pages : List JsPage) (fromIndex toIndex : Nat) : List JsPage :=
  let movedPage := pages.getD fromIndex none
  let rest := pages.take fromIndex ++ pages.drop (fromIndex + 1)
  rest.take toIndex ++ movedPage :: rest.drop toIndex

lemma take_append_cons_getD (A B : List JsPage) (x : JsPage) :
    (A ++ x :: B).getD A.length none = x := by
  rw [List.getD_eq_getElem?_getD, List.getElem?_append_right le_rfl]
  simp

lemma take_append_cons_take (A B : List JsPage) (x : JsPage) :
    (A ++ x :: B).take A.length = A :=
  List.take_left A (x :: B)

lemma take_append_cons_drop (A B : List JsPage) (x : JsPage) :
    (A ++ x :: B).drop (A.length + 1) = B := by
  induction A with
  | nil => simp
  | cons a A ih => simpa using ih

/-- Splitting a list at an in-bounds index. -/
lemma take_getD_drop (l : List JsPage) (i : Nat) (h : i < l.length) :
    l.take i ++ l.getD i none :: l.drop (i + 1) = l := by
  rw [List.getD_eq_getElem?_getD, List.getElem?_eq_getElem h]
  have := List.take_append_drop i l
  rw [List.drop_eq_getElem_cons h] at this
  simpa using this

/-- Claim C6 (counterexample): an out-of-bounds reorder is not rejected and
does not leave the sequence unchanged — on a one-element collection,
Reorder(5, 0) inserts an undefined entry in front, producing a two-element
array. -/
theorem C6_counterexample :
    reorderPages [some ⟨1, "a", 0, [1], 0⟩] 5 0
      ≠ [some ⟨1, "a", 0, [1], 0⟩] := by
  decide

/-- Claim C6 (amended): reorderPages performs no bounds check and raises no
error; JS splice semantics silently clamp.  When fromIndex is past the end,
the first splice removes nothing and binds movedPage to undefined, and the
second splice inserts that undefined entry at toIndex clamped to the array
length — growing the array by one rather than leaving it unchanged. -/
theorem C6_amended_no_bounds_check (pages : List JsPage)
    (fromIndex toIndex : Nat) (h : pages.length ≤ fromIndex) :
    reorderPages pages fromIndex toIndex
        = pages.take toIndex ++ none :: pages.drop toIndex ∧
    (reorderPages pages fromIndex toIndex).length = pages.length + 1 := by
  have hrest : pages.take fromIndex ++ pages.drop (fromIndex + 1) = pages := by
    rw [List.take_of_length_le h, List.drop_of_length_le (by omega)]
    simp
  have hmoved : pages.getD fromIndex none = none := by
    rw [List.getD_eq_getElem?_getD, List.getElem?_eq_none h]
    rfl
  constructor
  · unfold reorderPages
    rw [hrest, hmoved]
  · unfold reorderPages
    rw [hrest, hmoved]
    simp
    omega

/-- Witness for C6_amended_no_bounds_check at a concrete input. -/
theorem C6_amended_witness :
    reorderPages [some ⟨1, "a", 0, [1], 0⟩] 5 0
        = [none, some ⟨1, "a", 0, [1], 0⟩] :=
  (C6_amended_no_bounds_check [some ⟨1, "a", 0, [1], 0⟩] 5 0 (by decide)).1

/-- Claim C7: for in-bounds indices, Reorder(i, j) followed by Reorder(j, i)
restores the original sequence — adjacent or not, including i = j. -/
lemma getD_append_cons (A B : List JsPage) (x : JsPage) (n : Nat)
    (h : A.length = n) : (A ++ x :: B).getD n none = x := by
  subst h; exact take_append_cons_getD A B x

lemma take_append_cons_eq (A B : List JsPage) (x : JsPage) (n : Nat)
    (h : A.length = n) : (A ++ x :: B).take n = A := by
  subst h; exact take_append_cons_take A B x

lemma drop_append_cons_eq (A B : List JsPage) (x : JsPage) (n : Nat)
    (h : A.length = n) : (A ++ x :: B).drop (n + 1) = B := by
  subst h; exact take_append_cons_drop A B x

theorem C7_reorder_self_inverse (l : List JsPage) (i j : Nat)
    (hi : i < l.length) (hj : j < l.length) :
    reorderPages (reorderPages l i j) j i = l := by
  have hrestlen : (l.take i ++ l.drop (i + 1)).length = l.length - 1 := by
    rw [List.length_append, List.length_take, List.length_drop]
    omega
  have htk : (((l.take i ++ l.drop (i + 1)).take j)).length = j := by
    rw [List.length_take]; omega
  have h1 : reorderPages l i j
      = (l.take i ++ l.drop (i + 1)).take j ++ l.getD i none ::
        (l.take i ++ l.drop (i + 1)).drop j := rfl
  rw [h1]
  simp only [reorderPages]
  rw [getD_append_cons _ _ _ j htk]
  rw [take_append_cons_eq _ _ _ j htk]
  rw [drop_append_cons_eq _ _ _ j htk]
  rw [List.take_append_drop j (l.take i ++ l.drop (i + 1))]
  rw [List.take_left' (by rw [List.length_take]; omega :
        (l.take i).length = i)]
  rw [List.drop_left' (by rw [List.length_take]; omega :
        (l.take i).length = i)]
  exact take_getD_drop l i hi

/-- Witness for C7_reorder_self_inverse on a concrete three-element
collection with non-adjacent indices. -/
theorem C7_witness :
    reorderPages (reorderPages
      [some ⟨1, "a", 0, [1], 0⟩, some ⟨2, "a", 1, [1], 0⟩,
       some ⟨3, "a", 2, [1], 0⟩] 0 2) 2 0
      = [some ⟨1, "a", 0, [1], 0⟩, some ⟨2, "a", 1, [1], 0⟩,
         some ⟨3, "a", 2, [1], 0⟩] :=
  C7_reorder_self_inverse _ 0 2 (by decide) (by decide)

/-- Claim C9: Reorder never alters any surviving record (every record present
after the call was present, with identical fields, before it; for in-bounds
source index the result is even a permutation), and DeleteSelected keeps a
subsequence of the original records — preserving both their fields and their
relative order. -/
theorem C9_reorder_delete_frame :
    (∀ (l : List JsPage) (i j : Nat) (r : PageRecord),
        some r ∈ reorderPages l i j → some r ∈ l) ∧
    (∀ (l : List JsPage) (i j : Nat), i < l.length →
        (reorderPages l i j).Perm l) ∧
    (∀ s : AppState, (deleteSelected s).pages.Sublist s.pages) := by
  refine ⟨?_, ?_, ?_⟩
  · intro l i j r hr
    unfold reorderPages at hr
    rcases List.mem_append.mp hr with h | h
    · have : some r ∈ l.take i ++ l.drop (i + 1) :=
        (List.take_sublist _ _).mem h
      rcases List.mem_append.mp this with h2 | h2
      · exact (List.take_sublist _ _).mem h2
      · exact (List.drop_sublist _ _).mem h2
    · rcases List.mem_cons.mp h with h2 | h2
      · by_cases hil : i < l.length
        · rw [List.getD_eq_getElem?_getD, List.getElem?_eq_getElem hil] at h2
          rw [h2]
          exact List.getElem_mem hil
        · rw [List.getD_eq_getElem?_getD,
            List.getElem?_eq_none (by omega)] at h2
          cases h2
      · have : some r ∈ l.take i ++ l.drop (i + 1) :=
          (List.drop_sublist _ _).mem h2
        rcases List.mem_append.mp this with h3 | h3
        · exact (List.take_sublist _ _).mem h3
        · exact (List.drop_sublist _ _).mem h3
  · intro l i j hi
    unfold reorderPages
    have h1 : (l.take i ++ l.drop (i + 1)).take j ++ l.getD i none ::
        (l.take i ++ l.drop (i + 1)).drop j
        |>.Perm (l.getD i none :: ((l.take i ++ l.drop (i + 1)).take j ++
          (l.take i ++ l.drop (i + 1)).drop j)) := List.perm_middle
    have h2 : (l.take i ++ l.drop (i + 1)).take j ++
        (l.take i ++ l.drop (i + 1)).drop j = l.take i ++ l.drop (i + 1) :=
      List.take_append_drop _ _
    rw [h2] at h1
    refine h1.trans ?_
    have h3 : (l.take i ++ l.getD i none :: l.drop (i + 1)).Perm
        (l.getD i none :: (l.take i ++ l.drop (i + 1))) := List.perm_middle
    refine h3.symm.trans ?_
    rw [take_getD_drop l i hi]
  · intro s
    exact List.filter_sublist _

/-- Witness for C9_reorder_delete_frame: the permutation part applied at a
concrete in-bounds reorder. -/
theorem C9_witness :
    (reorderPages [some ⟨1, "a", 0, [1], 0⟩, some ⟨2, "a", 1, [1], 0⟩] 0 1).Perm
      [some ⟨1, "a", 0, [1], 0⟩, some ⟨2, "a", 1, [1], 0⟩] :=
  C9_reorder_delete_frame.2.1 _ 0 1 (by decide)

/-- Witness for C10_rotate_frame at a concrete state: the unselected second
record survives RotateSelected untouched. -/
theorem C10_witness :
    (rotateSelected ⟨[⟨1, "a", 0, [1], 0⟩, ⟨2, "b", 1, [2], 0⟩], {1}⟩).pages[1]?
      = some ⟨2, "b", 1, [2], 0⟩ :=
  (C10_rotate_frame ⟨[⟨1, "a", 0, [1], 0⟩, ⟨2, "b", 1, [2], 0⟩], {1}⟩).2.2.1 1
    ⟨2, "b", 1, [2], 0⟩ (by decide) (by decide)

/-! ## Loading

loadPDFs (src/src/main.js lines 89-128).  For each file, the bytes are
parsed twice: by pdf-lib (PDFDocument.load, which yields the page count and
throws on malformed bytes) and by pdf.js (getDocument, and then one
getPage(i+1) call per page, each of which can reject).  A record is pushed
onto the global pages array immediately after each successful getPage call,
inside the per-page loop.  The try/catch wraps the whole multi-file loop, so
the first error aborts the rest of the batch while keeping everything already
pushed.  We model the two collaborators by an environment of oracles on the
byte buffer, and crypto.randomUUID() by a threaded counter. -/

/-- One dropped file: its name and raw bytes. -/
structure InputFile where
  name : String
  bytes : List Nat
deriving DecidableEq, Repr

/-- Behaviour of the two external PDF collaborators on given bytes:
pageCount is the result of PDFDocument.load (none = the bytes are malformed
and the load throws); jsDocOk tells whether pdf.js getDocument succeeds;
jsPageOk tells whether pdf.js getPage succeeds for a given page index. -/
structure PdfEnv where
  pageCount : List Nat → Option Nat
  jsDocOk : List Nat → Bool
  jsPageOk : List Nat → Nat → Bool

/-- The inner per-page loop of loadPDFs for one file, with `k` pages left to
process starting at page index `i`: on each successful getPage a fresh record
is appended; a getPage failure throws, returning the pages appended so far
with the success flag false. -/
def pushPages (env : PdfEnv) (f : InputFile) :
    Nat → Nat → List PageRecord → Nat → List PageRecord × Nat × Bool
  | 0, _, st, nid => (st, nid, true)
  | k + 1, i, st, nid =>
    if env.jsPageOk f.bytes i then
      pushPages env f k (i + 1) (st ++ [⟨nid, f.name, i, f.bytes, 0⟩]) (nid + 1)
    else (st, nid, false)

/-- Processing of one file inside loadPDFs: parse with pdf-lib (abort on
malformed bytes), open with pdf.js (abort on failure), then run the per-page
loop.  The returned flag records whether an exception escaped. -/
def loadFile (env : PdfEnv) (f : InputFile) (st : List PageRecord)
    (nid : Nat) : List PageRecord × Nat × Bool :=
  match env.pageCount f.bytes with
  | none => (st, nid, false)
  | some cnt =>
    if env.jsDocOk f.bytes then pushPages env f cnt 0 st nid
    else (st, nid, false)

/-- loadPDFs: files are processed sequentially; the first exception aborts
the remaining files of the batch (the catch only alerts), keeping every
record pushed up to that point. -/
def loadPDFs (env : PdfEnv) :
    List InputFile → List PageRecord → Nat → List PageRecord × Nat
  | [], st, nid => (st, nid)
  | f :: rest, st, nid =>
    match loadFile env f st nid with
    | (st2, nid2, true) => loadPDFs env rest st2 nid2
    | (st2, nid2, false) => (st2, nid2)

/-- A concrete environment for the C3 counterexample: every document reports
two pages, pdf.js opens every document, but getPage succeeds only for page
index 0 and rejects for page index 1. -/
def envPartial : PdfEnv :=
  ⟨fun _ => some 2, fun _ => true, fun _ i => i == 0⟩

/-- Claim C3 (counterexample): a document whose processing fails midway is
not rolled back.  With envPartial, loading the single file ("f.pdf", [9])
fails (the flag is false because getPage(2) rejects), yet one record from
that very document remains in the collection — not zero, as all-or-nothing
would demand. -/
theorem C3_counterexample :
    (loadFile envPartial ⟨"f.pdf", [9]⟩ [] 0).2.2 = false ∧
    (loadPDFs envPartial [⟨"f.pdf", [9]⟩] [] 0).1
      = [⟨0, "f.pdf", 0, [9], 0⟩] := by
  constructor
  · rfl
  · rfl

lemma record_range_shift (nm : String) (b : List Nat) (nid i j : Nat) :
    PageRecord.mk nid nm i b 0 ::
      List.map (fun t => PageRecord.mk (nid + 1 + t) nm (i + 1 + t) b 0)
        (List.range j)
    = List.map (fun t => PageRecord.mk (nid + t) nm (i + t) b 0)
        (List.range (j + 1)) := by
  rw [List.range_succ_eq_map, List.map_cons, List.map_map]
  congr 1
  apply List.map_congr_left
  intro t ht
  simp only [Function.comp_apply, PageRecord.mk.injEq, Nat.succ_eq_add_one,
    and_true, true_and]
  omega

/-- Closed form of the per-page loop when page j is the first to fail:
exactly the j records before the failure are appended. -/
lemma pushPages_stops_at_failure (env : PdfEnv) (f : InputFile) :
    ∀ (j k i : Nat) (st : List PageRecord) (nid : Nat), j < k →
      (∀ t, t < j → env.jsPageOk f.bytes (i + t) = true) →
      env.jsPageOk f.bytes (i + j) = false →
      pushPages env f k i st nid
        = (st ++ (List.range j).map
            (fun t => ⟨nid + t, f.name, i + t, f.bytes, 0⟩), nid + j, false) := by
  intro j
  induction j with
  | zero =>
    intro k i st nid hk _ hfail
    obtain ⟨k2, rfl⟩ : ∃ k2, k = k2 + 1 := ⟨k - 1, by omega⟩
    simp only [pushPages]
    rw [show env.jsPageOk f.bytes i = false by simpa using hfail]
    simp
  | succ j ih =>
    intro k i st nid hk hok hfail
    obtain ⟨k2, rfl⟩ : ∃ k2, k = k2 + 1 := ⟨k - 1, by omega⟩
    simp only [pushPages]
    rw [show env.jsPageOk f.bytes i = true by simpa using hok 0 (by omega)]
    simp only [if_true]
    have hstep := ih k2 (i + 1)
      (st ++ [PageRecord.mk nid f.name i f.bytes 0]) (nid + 1)
      (by omega)
      (fun t ht => by
        have := hok (t + 1) (by omega)
        simpa [Nat.add_assoc, Nat.add_comm 1 t] using this)
      (by simpa [Nat.add_assoc, Nat.add_comm 1 j] using hfail)
    rw [hstep]
    rw [List.append_assoc, List.singleton_append,
      record_range_shift f.name f.bytes nid i j]
    have : nid + 1 + j = nid + (j + 1) := by omega
    rw [this]

/-- Claim C3 (amended): per-document appending is all-or-nothing only for
parse failures.  If pdf-lib rejects the bytes (or pdf.js cannot open the
document), no page of that document is appended and the batch stops with the
earlier documents' pages intact; but if pdf.js getPage rejects at page j
after j earlier pages of the same document succeeded, exactly those j records
remain appended (partial append), again with all earlier documents' pages
intact. -/
theorem C3_amended_load_failure (env : PdfEnv) (f : InputFile)
    (rest : List InputFile) (st : List PageRecord) (nid : Nat) :
    (env.pageCount f.bytes = none →
      loadPDFs env (f :: rest) st nid = (st, nid)) ∧
    (env.jsDocOk f.bytes = false →
      loadPDFs env (f :: rest) st nid = (st, nid)) ∧
    (∀ cnt j, env.pageCount f.bytes = some cnt → env.jsDocOk f.bytes = true →
      j < cnt →
      (∀ t, t < j → env.jsPageOk f.bytes t = true) →
      env.jsPageOk f.bytes j = false →
      loadPDFs env (f :: rest) st nid
        = (st ++ (List.range j).map
            (fun t => ⟨nid + t, f.name, t, f.bytes, 0⟩), nid + j)) := by
  refine ⟨?_, ?_, ?_⟩
  · intro h
    simp only [loadPDFs, loadFile, h]
  · intro h
    simp only [loadPDFs, loadFile]
    cases hc : env.pageCount f.bytes with
    | none => rfl
    | some cnt => rw [h]; rfl
  · intro cnt j hc hd hj hok hfail
    have hpush := pushPages_stops_at_failure env f j cnt 0 st nid hj
      (fun t ht => by simpa using hok t ht) (by simpa using hfail)
    simp only [loadPDFs, loadFile, hc, hd, if_true, hpush]
    simp

/-- Witness for C3_amended_load_failure: the parse-failure case at a concrete
input (malformed document, nothing appended). -/
theorem C3_amended_witness :
    loadPDFs ⟨fun _ => none, fun _ => true, fun _ _ => true⟩
      [⟨"bad.pdf", [0]⟩] [⟨3, "ok.pdf", 0, [7], 0⟩] 4
      = ([⟨3, "ok.pdf", 0, [7], 0⟩], 4) :=
  (C3_amended_load_failure ⟨fun _ => none, fun _ => true, fun _ _ => true⟩
    ⟨"bad.pdf", [0]⟩ [] [⟨3, "ok.pdf", 0, [7], 0⟩] 4).1 rfl

/-! ## Merge / export

downloadMerged (src/src/main.js lines 324-382).  The pdf-lib collaborator is
modelled by a function parse : List Nat → List Int giving, for a byte
buffer, the list of per-page rotations of the document it encodes — all that
copyPages / getRotation / setRotation expose of a copied page that the
claims speak about.  A copied output page is recorded as the buffer it was
copied from, the page index used, and the rotation it ends up carrying.

Grouping uses a JS Map keyed on page.sourceFile + '-' + page.pdfBytes.length
(insertion-ordered); the group stores the byte buffer of the FIRST record
seen with that key.  copiedPages is a JS array filled by index assignment
(copiedPages[index] = copiedPage) and finally iterated in index order by the
addPage loop, so the output order is the array order. -/

/-- One copied output page: the buffer it was copied from, the page index
within that buffer, and the rotation value carried by the output page. -/
structure OutPage where
  srcBytes : List Nat
  srcIndex : Nat
  outRotation : Int
deriving DecidableEq, Repr

/-- The grouping key: `page.sourceFile + '-' + page.pdfBytes.length`. -/
def groupKey (p : PageRecord) : String :=
  p.sourceFile ++ "-" ++ toString p.pdfBytes.length

/-- The insertion-ordered JS Map of downloadMerged: key, the stored byte
buffer, and the (page, index) pairs pushed for that key. -/
abbrev GroupMap := List (String × List Nat × List (PageRecord × Nat))

/-- One step of building the Map: append the pair to the existing entry for
the key, or append a fresh entry (with the current record's bytes) at the
end — JS Map iteration order is insertion order. -/
def mapUpsert (m : GroupMap) (k : String) (b : List Nat)
    (v : PageRecord × Nat) : GroupMap :=
  match m with
  | [] => [(k, b, [v])]
  | (k1, b1, vs) :: rest =>
    if k1 = k then (k1, b1, vs ++ [v]) :: rest
    else (k1, b1, vs) :: mapUpsert rest k b v

/-- The pages.forEach((page, index) => ...) loop that populates the Map. -/
def pagesBySource (pages : List PageRecord) : GroupMap :=
  pages.enum.foldl
    (fun m ip => mapUpsert m (groupKey ip.2) ip.2.pdfBytes (ip.2, ip.1)) []

/-- mergedPdf.copyPages(srcDoc, [page.sourcePageIndex]) followed by the
conditional rotation update: the output page carries the source page's own
rotation, plus page.rotation when that is nonzero — the code passes the raw
sum to setRotation, with no reduction. -/
def copyPage (parse : List Nat → List Int) (bytes : List Nat)
    (p : PageRecord) : OutPage :=
  ⟨bytes, p.sourcePageIndex,
   if p.rotation ≠ 0 then
     (parse bytes).getD p.sourcePageIndex 0 + (p.rotation : Int)
   else (parse bytes).getD p.sourcePageIndex 0⟩

/-- JS sparse-array assignment `arr[i] = v`: overwrite in range, otherwise
extend with undefined holes up to index i. -/
def arrSet (arr : List (Option OutPage)) (i : Nat) (v : OutPage) :
    List (Option OutPage) :=
  if i < arr.length then arr.set i (some v)
  else arr ++ List.replicate (i - arr.length) none ++ [some v]

/-- The (index, copied page) assignments performed by the grouped copy loop,
in the order the two nested for-loops perform them. -/
def mergeAssignments (parse : List Nat → List Int)
    (pages : List PageRecord) : List (Nat × OutPage) :=
  (pagesBySource pages).flatMap
    (fun g => g.2.2.map (fun pi => (pi.2, copyPage parse g.2.1 pi.1)))

/-- The copiedPages array after the copy loops: every assignment applied in
order to the initially empty array. -/
def copiedPagesOf (parse : List Nat → List Int)
    (pages : List PageRecord) : List (Option OutPage) :=
  (mergeAssignments parse pages).foldl (fun arr iv => arrSet arr iv.1 iv.2) []

/-- downloadMerged: early return (no output) on an empty collection,
otherwise the output document's pages are the copiedPages array in index
order (the final addPage loop iterates it in order). -/
def downloadMerged (parse : List Nat → List Int)
    (pages : List PageRecord) : Option (List (Option OutPage)) :=
  if pages.isEmpty then none else some (copiedPagesOf parse pages)

/-- The byte buffer a record's group stores: that of the first record in the
collection with the same grouping key (the record's own buffer when no
earlier record shares its key). -/
def groupBytes (pages : List PageRecord) (p : PageRecord) : List Nat :=
  match pages.find? (fun q => groupKey q = groupKey p) with
  | some q => q.pdfBytes
  | none => p.pdfBytes

/-- Claim C1 (counterexample): grouping is keyed on source NAME and byte
LENGTH, not on byte-buffer identity.  Two distinct one-byte documents, both
named "a", collide on the key "a-1"; the export copies the second record's
page from the first record's buffer [1] instead of its own buffer [2]. -/
theorem C1_counterexample :
    downloadMerged (fun _ => [0])
        [⟨0, "a", 0, [1], 0⟩, ⟨1, "a", 0, [2], 0⟩]
      = some [some ⟨[1], 0, 0⟩, some ⟨[1], 0, 0⟩] ∧
    (PageRecord.mk 1 "a" 0 [2] 0).pdfBytes ≠ ([1] : List Nat) := by
  constructor
  · rfl
  · decide

/-- All (page, index) pairs stored in a group map, in group order. -/
def flattenGroups (m : GroupMap) : List (PageRecord × Nat) :=
  m.flatMap (fun g => g.2.2)

lemma flattenGroups_upsert (m : GroupMap) (k : String) (b : List Nat)
    (v : PageRecord × Nat) :
    (flattenGroups (mapUpsert m k b v)).Perm (v :: flattenGroups m) := by
  induction m with
  | nil => simp [mapUpsert, flattenGroups]
  | cons g rest ih =>
    obtain ⟨k1, b1, vs⟩ := g
    by_cases hk : k1 = k
    · simp only [mapUpsert, if_pos hk, flattenGroups, List.flatMap_cons]
      have : (vs ++ [v]) ++ rest.flatMap (fun g => g.2.2)
          = vs ++ v :: rest.flatMap (fun g => g.2.2) := by
        simp
      rw [this]
      exact List.perm_middle
    · simp only [mapUpsert, if_neg hk, flattenGroups, List.flatMap_cons]
      refine List.Perm.trans (List.Perm.append_left vs ih) ?_
      exact List.perm_middle

lemma flattenGroups_foldl (E : List (Nat × PageRecord)) :
    ∀ (m : GroupMap),
      (flattenGroups (E.foldl
        (fun m ip => mapUpsert m (groupKey ip.2) ip.2.pdfBytes (ip.2, ip.1)) m)).Perm
      (E.map (fun ip => (ip.2, ip.1)) ++ flattenGroups m) := by
  induction E with
  | nil => intro m; simp
  | cons ip E2 ih =>
    intro m
    simp only [List.foldl_cons, List.map_cons, List.cons_append]
    refine List.Perm.trans (ih _) ?_
    refine List.Perm.trans (List.Perm.append_left _
      (flattenGroups_upsert m (groupKey ip.2) ip.2.pdfBytes (ip.2, ip.1))) ?_
    exact List.perm_middle

lemma flattenGroups_pagesBySource (pages : List PageRecord) :
    (flattenGroups (pagesBySource pages)).Perm
      (pages.enum.map (fun ip => (ip.2, ip.1))) := by
  have h := flattenGroups_foldl pages.enum []
  simpa [flattenGroups, pagesBySource] using h

/-- Soundness of a group map with respect to the pages list: every group's
stored byte buffer is that of the first record in the collection with the
group's key, and every stored pair has the group's key. -/
def GroupsOk (pages : List PageRecord) (m : GroupMap) : Prop :=
  ∀ g ∈ m,
    ((pages.find? (fun q => groupKey q = g.1)).map PageRecord.pdfBytes
        = some g.2.1) ∧
    ∀ pi ∈ g.2.2, groupKey (Prod.fst pi) = g.1

lemma mapUpsert_mem (m : GroupMap) (k : String) (b : List Nat)
    (v : PageRecord × Nat) :
    ∀ g ∈ mapUpsert m k b v,
      g ∈ m ∨
      (∃ vs, (g.1, g.2.1, vs) ∈ m ∧ g.1 = k ∧ g.2.2 = vs ++ [v]) ∨
      (g = (k, b, [v]) ∧ ∀ g2 ∈ m, g2.1 ≠ k) := by
  induction m with
  | nil =>
    intro g hg
    simp only [mapUpsert, List.mem_singleton] at hg
    exact Or.inr (Or.inr ⟨hg, by simp⟩)
  | cons g0 rest ih =>
    intro g hg
    obtain ⟨k1, b1, vs⟩ := g0
    by_cases hk : k1 = k
    · simp only [mapUpsert, if_pos hk, List.mem_cons] at hg
      rcases hg with hg | hg
      · subst hg
        exact Or.inr (Or.inl ⟨vs, by simp [hk]⟩)
      · exact Or.inl (List.mem_cons_of_mem _ hg)
    · simp only [mapUpsert, if_neg hk, List.mem_cons] at hg
      rcases hg with hg | hg
      · exact Or.inl (by simp [hg])
      · rcases ih g hg with h | h | h
        · exact Or.inl (List.mem_cons_of_mem _ h)
        · exact Or.inr (Or.inl ⟨h.choose, List.mem_cons_of_mem _ h.choose_spec.1,
            h.choose_spec.2⟩)
        · refine Or.inr (Or.inr ⟨h.1, ?_⟩)
          intro g2 hg2
          rcases List.mem_cons.mp hg2 with h2 | h2
          · subst h2; exact hk
          · exact h.2 g2 h2

lemma mapUpsert_has_key (m : GroupMap) (k : String) (b : List Nat)
    (v : PageRecord × Nat) :
    ∃ g ∈ mapUpsert m k b v, g.1 = k := by
  induction m with
  | nil => exact ⟨(k, b, [v]), by simp [mapUpsert]⟩
  | cons g0 rest ih =>
    obtain ⟨k1, b1, vs⟩ := g0
    by_cases hk : k1 = k
    · exact ⟨(k1, b1, vs ++ [v]), by simp [mapUpsert, hk]⟩
    · obtain ⟨g, hg, hgk⟩ := ih
      exact ⟨g, by simp [mapUpsert, hk, List.mem_cons, hg], hgk⟩

lemma mapUpsert_keys_sub (m : GroupMap) (k : String) (b : List Nat)
    (v : PageRecord × Nat) :
    ∀ g ∈ m, ∃ g2 ∈ mapUpsert m k b v, g2.1 = g.1 := by
  induction m with
  | nil => intro g hg; cases hg
  | cons g0 rest ih =>
    intro g hg
    obtain ⟨k1, b1, vs⟩ := g0
    by_cases hk : k1 = k
    · rcases List.mem_cons.mp hg with h | h
      · exact ⟨(k1, b1, vs ++ [v]), by simp [mapUpsert, hk], by simp [h]⟩
      · exact ⟨g, by simp [mapUpsert, hk, List.mem_cons, h], rfl⟩
    · rcases List.mem_cons.mp hg with h | h
      · exact ⟨(k1, b1, vs), by simp [mapUpsert, hk], by simp [h]⟩
      · obtain ⟨g2, hg2, hgk⟩ := ih g h
        exact ⟨g2, by simp [mapUpsert, hk, List.mem_cons, hg2], hgk⟩

lemma groupsOk_upsert (pages : List PageRecord) (m : GroupMap)
    (p : PageRecord) (i : Nat) (hm : GroupsOk pages m)
    (hfresh : (∀ g ∈ m, g.1 ≠ groupKey p) →
      (pages.find? (fun q => groupKey q = groupKey p)).map PageRecord.pdfBytes
        = some p.pdfBytes) :
    GroupsOk pages (mapUpsert m (groupKey p) p.pdfBytes (p, i)) := by
  intro g hg
  rcases mapUpsert_mem m (groupKey p) p.pdfBytes (p, i) g hg with h | h | h
  · exact hm g h
  · obtain ⟨vs, hmem, hkey, hvs⟩ := h
    obtain ⟨hbytes, hpairs⟩ := hm _ hmem
    refine ⟨hbytes, ?_⟩
    intro pi hpi
    rw [hvs] at hpi
    rcases List.mem_append.mp hpi with h2 | h2
    · exact hpairs pi h2
    · rcases List.mem_singleton.mp h2 with rfl
      exact hkey.symm
  · obtain ⟨hgv, hnone⟩ := h
    subst hgv
    refine ⟨hfresh hnone, ?_⟩
    intro pi hpi
    rcases List.mem_singleton.mp hpi with rfl
    rfl

lemma groupsOk_foldl (pages : List PageRecord) :
    ∀ (E : List (Nat × PageRecord)) (m : GroupMap),
      GroupsOk pages m →
      (∀ k, (∀ g ∈ m, g.1 ≠ k) →
        ∀ ip, E.find? (fun jp => groupKey jp.2 = k) = some ip →
          (pages.find? (fun q => groupKey q = k)).map PageRecord.pdfBytes
            = some ip.2.pdfBytes) →
      GroupsOk pages (E.foldl
        (fun m ip => mapUpsert m (groupKey ip.2) ip.2.pdfBytes (ip.2, ip.1)) m) := by
  intro E
  induction E with
  | nil => intro m hm _; exact hm
  | cons ip0 E2 ih =>
    intro m hm hfirst
    simp only [List.foldl_cons]
    apply ih
    · apply groupsOk_upsert pages m ip0.2 ip0.1 hm
      intro hnone
      apply hfirst (groupKey ip0.2) hnone ip0
      simp [List.find?_cons]
    · intro k hk2 ip hip
      have hkey : ∃ g ∈ mapUpsert m (groupKey ip0.2) ip0.2.pdfBytes
          (ip0.2, ip0.1), g.1 = groupKey ip0.2 :=
        mapUpsert_has_key m _ _ _
      obtain ⟨gk, hgk, hgkey⟩ := hkey
      have hkne : groupKey ip0.2 ≠ k := by
        intro he
        exact hk2 gk hgk (hgkey.trans he)
      have hmk : ∀ g ∈ m, g.1 ≠ k := by
        intro g hg
        obtain ⟨g2, hg2, hg2k⟩ := mapUpsert_keys_sub m (groupKey ip0.2)
          ip0.2.pdfBytes (ip0.2, ip0.1) g hg
        intro he
        exact hk2 g2 hg2 (hg2k.trans he)
      apply hfirst k hmk ip
      rw [List.find?_cons] at *
      rcases hd : (fun jp : Nat × PageRecord => decide (groupKey jp.2 = k)) ip0 with _ | _
      · simpa [hd] using hip
      · exfalso
        have : groupKey ip0.2 = k := by simpa using hd
        exact hkne this

/-- find? over an enumFrom list projects to find? over the list itself. -/
lemma find?_enumFrom (k : String) :
    ∀ (l : List PageRecord) (n : Nat) (ip : Nat × PageRecord),
      (List.enumFrom n l).find? (fun jp => groupKey jp.2 = k) = some ip →
      l.find? (fun q => groupKey q = k) = some ip.2 := by
  intro l
  induction l with
  | nil => intro n ip h; simp [List.enumFrom] at h
  | cons q l2 ih =>
    intro n ip h
    rw [List.enumFrom_cons] at h
    by_cases hq : groupKey q = k
    · rw [List.find?_cons_of_pos _ (by simpa using hq)] at h
      rw [List.find?_cons_of_pos _ (by simpa using hq)]
      obtain rfl : (n, q) = ip := by simpa using h
      rfl
    · rw [List.find?_cons_of_neg _ (by simpa using hq)] at h
      rw [List.find?_cons_of_neg _ (by simpa using hq)]
      exact ih (n + 1) ip h

lemma groupsOk_pagesBySource (pages : List PageRecord) :
    GroupsOk pages (pagesBySource pages) := by
  apply groupsOk_foldl pages pages.enum []
  · intro g hg; cases hg
  · intro k _ ip hip
    have h1 : pages.find? (fun q => groupKey q = k) = some ip.2 :=
      find?_enumFrom k pages 0 ip hip
    rw [h1]
    rfl

lemma groupBytes_of_groupsOk (pages : List PageRecord) (m : GroupMap)
    (hm : GroupsOk pages m) (g : String × List Nat × List (PageRecord × Nat))
    (hg : g ∈ m) (pi : PageRecord × Nat) (hpi : pi ∈ g.2.2) :
    groupBytes pages pi.1 = g.2.1 := by
  obtain ⟨hbytes, hpairs⟩ := hm g hg
  have hkey := hpairs pi hpi
  unfold groupBytes
  obtain ⟨q0, hq0, hq0b⟩ := Option.map_eq_some'.mp hbytes
  rw [show (fun q => decide (groupKey q = groupKey pi.1))
      = (fun q => decide (groupKey q = g.1)) by
    funext q; rw [hkey]]
  rw [hq0]
  exact hq0b

lemma flatMap_copy_eq (parse : List Nat → List Int)
    (pages : List PageRecord) :
    ∀ (m : GroupMap), GroupsOk pages m →
      m.flatMap (fun g => g.2.2.map
          (fun pi => (pi.2, copyPage parse g.2.1 pi.1)))
        = (m.flatMap (fun g => g.2.2)).map
            (fun pi => (pi.2, copyPage parse (groupBytes pages pi.1) pi.1)) := by
  intro m
  induction m with
  | nil => intro _; simp
  | cons g rest ih =>
    intro hm
    have hrest : GroupsOk pages rest := fun g2 hg2 =>
      hm g2 (List.mem_cons_of_mem _ hg2)
    simp only [List.flatMap_cons, List.map_append]
    rw [ih hrest]
    congr 1
    apply List.map_congr_left
    intro pi hpi
    rw [groupBytes_of_groupsOk pages (g :: rest) hm g
      (List.mem_cons_self g rest) pi hpi]

lemma mergeAssignments_perm (parse : List Nat → List Int)
    (pages : List PageRecord) :
    (mergeAssignments parse pages).Perm
      (pages.enum.map
        (fun ip => (ip.1, copyPage parse (groupBytes pages ip.2) ip.2))) := by
  unfold mergeAssignments
  rw [flatMap_copy_eq parse pages _ (groupsOk_pagesBySource pages)]
  have h := (flattenGroups_pagesBySource pages).map
    (fun pi => (pi.2, copyPage parse (groupBytes pages pi.1) pi.1))
  unfold flattenGroups at h
  refine h.trans ?_
  rw [List.map_map]
  exact List.Perm.refl _

/-- The fold step applying one JS array assignment. -/
def stepArr (arr : List (Option OutPage)) (iv : Nat × OutPage) :
    List (Option OutPage) :=
  arrSet arr iv.1 iv.2

lemma arrSet_length (arr : List (Option OutPage)) (i : Nat) (v : OutPage) :
    (arrSet arr i v).length = max arr.length (i + 1) := by
  unfold arrSet
  split
  · rw [List.length_set]; omega
  · simp only [List.length_append, List.length_replicate, List.length_cons,
      List.length_nil]
    omega

lemma arrSet_getElem?_self (arr : List (Option OutPage)) (i : Nat)
    (v : OutPage) : (arrSet arr i v)[i]? = some (some v) := by
  unfold arrSet
  split
  · exact List.getElem?_set_self (by assumption)
  · rename_i h
    have hlen : (arr ++ List.replicate (i - arr.length) none).length = i := by
      simp only [List.length_append, List.length_replicate]
      omega
    rw [List.getElem?_append_right (by omega), hlen]
    simp

lemma arrSet_getElem?_ne (arr : List (Option OutPage)) (i : Nat) (v : OutPage)
    (j : Nat) (hne : j ≠ i) (hj : j < arr.length) :
    (arrSet arr i v)[j]? = arr[j]? := by
  unfold arrSet
  split
  · exact List.getElem?_set_ne (fun he => hne he.symm)
  · rw [List.getElem?_append_left (by
      simp only [List.length_append, List.length_replicate]; omega)]
    rw [List.getElem?_append_left hj]

lemma foldl_stepArr_length_le (n : Nat) :
    ∀ (A : List (Nat × OutPage)) (arr : List (Option OutPage)),
      (∀ iv ∈ A, iv.1 < n) → arr.length ≤ n →
      (A.foldl stepArr arr).length ≤ n := by
  intro A
  induction A with
  | nil => intro arr _ h; exact h
  | cons iv0 A2 ih =>
    intro arr hA harr
    simp only [List.foldl_cons]
    apply ih
    · intro iv hiv; exact hA iv (List.mem_cons_of_mem _ hiv)
    · rw [stepArr, arrSet_length]
      have := hA iv0 (List.mem_cons_self iv0 A2)
      omega

lemma foldl_stepArr_frozen :
    ∀ (A : List (Nat × OutPage)) (arr : List (Option OutPage)) (j : Nat),
      j < arr.length → (∀ iv ∈ A, iv.1 ≠ j) →
      (A.foldl stepArr arr)[j]? = arr[j]? := by
  intro A
  induction A with
  | nil => intro arr j _ _; rfl
  | cons iv0 A2 ih =>
    intro arr j hj hA
    simp only [List.foldl_cons]
    rw [ih (stepArr arr iv0) j
      (by rw [stepArr, arrSet_length]; omega)
      (fun iv hiv => hA iv (List.mem_cons_of_mem _ hiv))]
    exact arrSet_getElem?_ne arr iv0.1 iv0.2 j
      (fun he => hA iv0 (List.mem_cons_self iv0 A2) he.symm) hj

lemma foldl_stepArr_write :
    ∀ (A : List (Nat × OutPage)) (arr : List (Option OutPage)) (i : Nat)
      (v : OutPage), (i, v) ∈ A → (A.map Prod.fst).Nodup →
      (A.foldl stepArr arr)[i]? = some (some v) := by
  intro A
  induction A with
  | nil => intro arr i v h _; cases h
  | cons iv0 A2 ih =>
    intro arr i v hmem hnd
    rw [List.map_cons, List.nodup_cons] at hnd
    simp only [List.foldl_cons]
    rcases List.mem_cons.mp hmem with h | h
    · obtain rfl : iv0 = (i, v) := h.symm
      rw [foldl_stepArr_frozen A2 (stepArr arr (i, v)) i
        (by rw [stepArr, arrSet_length]; omega)
        (fun iv hiv he => hnd.1 (by
          rw [← he]
          exact List.mem_map.mpr ⟨iv, hiv, rfl⟩))]
      exact arrSet_getElem?_self arr i v
    · exact ih (stepArr arr iv0) i v h hnd.2

lemma mergeAssignments_fst_nodup (parse : List Nat → List Int)
    (pages : List PageRecord) :
    ((mergeAssignments parse pages).map Prod.fst).Nodup := by
  have hperm := (mergeAssignments_perm parse pages).map Prod.fst
  rw [List.map_map] at hperm
  have he : pages.enum.map (Prod.fst ∘
      (fun ip => (ip.1, copyPage parse (groupBytes pages ip.2) ip.2)))
      = pages.enum.map Prod.fst := rfl
  rw [he, List.enum_map_fst] at hperm
  exact hperm.symm.nodup (List.nodup_range pages.length)

lemma mergeAssignments_mem (parse : List Nat → List Int)
    (pages : List PageRecord) (i : Nat) (p : PageRecord)
    (hp : pages[i]? = some p) :
    (i, copyPage parse (groupBytes pages p) p) ∈ mergeAssignments parse pages := by
  rw [(mergeAssignments_perm parse pages).mem_iff]
  exact List.mem_map.mpr ⟨(i, p), List.mem_enum_iff_getElem?.mpr hp, rfl⟩

lemma mergeAssignments_fst_lt (parse : List Nat → List Int)
    (pages : List PageRecord) :
    ∀ iv ∈ mergeAssignments parse pages, iv.1 < pages.length := by
  intro iv hiv
  rw [(mergeAssignments_perm parse pages).mem_iff] at hiv
  obtain ⟨ip, hip, rfl⟩ := List.mem_map.mp hiv
  exact (List.getElem?_eq_some.mp (List.mem_enum_iff_getElem?.mp hip)).1

/-- The heart of the export algorithm: despite copying in source-grouped
order, the copiedPages array ends up holding, at every index, exactly the
page copied for the record at that index of the collection. -/
lemma copiedPagesOf_eq (parse : List Nat → List Int)
    (pages : List PageRecord) :
    copiedPagesOf parse pages
      = pages.map (fun p => some (copyPage parse (groupBytes pages p) p)) := by
  apply List.ext_getElem?
  intro j
  by_cases hj : j < pages.length
  · have hp : pages[j]? = some pages[j] := List.getElem?_eq_getElem hj
    have h1 : (copiedPagesOf parse pages)[j]?
        = some (some (copyPage parse (groupBytes pages pages[j]) pages[j])) := by
      unfold copiedPagesOf
      exact foldl_stepArr_write (mergeAssignments parse pages) [] j _
        (mergeAssignments_mem parse pages j pages[j] hp)
        (mergeAssignments_fst_nodup parse pages)
    rw [h1, List.getElem?_map, hp]
    rfl
  · have h1 : (copiedPagesOf parse pages).length ≤ pages.length := by
      unfold copiedPagesOf
      exact foldl_stepArr_length_le pages.length _ []
        (mergeAssignments_fst_lt parse pages) (by simp)
    rw [List.getElem?_eq_none (by omega),
      List.getElem?_eq_none (by rw [List.length_map]; omega)]

/-- Claim C1 (amended): export always emits exactly one output page per
record, in the collection's order, copied at the record's sourcePageIndex —
but from the byte buffer stored by the record's group, i.e. the buffer of the
first record sharing its (sourceFile, byte-length) grouping key.  Only when
records with equal keys always carry the same buffer (in particular, whenever
distinct source documents differ in name or length) is every page copied
from its own source document. -/
theorem C1_amended_export (parse : List Nat → List Int)
    (pages : List PageRecord) (hne : pages ≠ []) :
    downloadMerged parse pages
      = some (pages.map
          (fun p => some (copyPage parse (groupBytes pages p) p))) ∧
    ∀ p ∈ pages,
      (∀ q ∈ pages, groupKey q = groupKey p → q.pdfBytes = p.pdfBytes) →
      (copyPage parse (groupBytes pages p) p).srcBytes = p.pdfBytes ∧
      (copyPage parse (groupBytes pages p) p).srcIndex = p.sourcePageIndex := by
  constructor
  · unfold downloadMerged
    rw [if_neg (by simpa using hne), copiedPagesOf_eq]
  · intro p hp hnocoll
    have hgb : groupBytes pages p = p.pdfBytes := by
      unfold groupBytes
      cases hfind : pages.find? (fun q => groupKey q = groupKey p) with
      | none => rfl
      | some q =>
        have hqmem := List.mem_of_find?_eq_some hfind
        have hqpred : groupKey q = groupKey p := by
          simpa using List.find?_some hfind
        exact hnocoll q hqmem hqpred
    exact ⟨by rw [show (copyPage parse (groupBytes pages p) p).srcBytes
      = groupBytes pages p from rfl, hgb], rfl⟩

/-- Witness for C1_amended_export at a concrete one-record collection. -/
theorem C1_amended_witness :
    downloadMerged (fun _ => [0]) [⟨0, "a", 0, [1], 0⟩]
      = some ([(⟨0, "a", 0, [1], 0⟩ : PageRecord)].map
          (fun p => some (copyPage (fun _ => [0])
            (groupBytes [⟨0, "a", 0, [1], 0⟩] p) p))) :=
  (C1_amended_export (fun _ => [0]) [⟨0, "a", 0, [1], 0⟩] (by decide)).1

/-- Claim C2 (amended): for every exported record with nonzero rotation, the
corresponding output page carries rotation existingPageRotation +
record.rotation, where existingPageRotation is the rotation of the page at
the record's sourcePageIndex in the group's source document.  The sum is
congruent to the claimed value modulo 360 but is NOT reduced: the raw sum is
written (so 270 + 180 yields 450, not 90). -/
theorem C2_amended_rotation (parse : List Nat → List Int)
    (pages : List PageRecord) (i : Nat) (p : PageRecord)
    (hp : pages[i]? = some p) (hrot : p.rotation ≠ 0) :
    ∃ l, downloadMerged parse pages = some l ∧
      l[i]? = some (some (copyPage parse (groupBytes pages p) p)) ∧
      (copyPage parse (groupBytes pages p) p).outRotation
        = (parse (groupBytes pages p)).getD p.sourcePageIndex 0
            + (p.rotation : Int) := by
  have hlt : i < pages.length := (List.getElem?_eq_some.mp hp).1
  have hne : ¬ pages.isEmpty = true := by
    intro h
    rw [List.isEmpty_iff] at h
    subst h
    simp at hlt
  refine ⟨pages.map (fun q => some (copyPage parse (groupBytes pages q) q)),
    ?_, ?_, ?_⟩
  · unfold downloadMerged
    rw [if_neg hne, copiedPagesOf_eq]
  · rw [List.getElem?_map, hp]
    rfl
  · simp [copyPage, hrot]

/-- Witness for C2_amended_rotation at the concrete 270 + 180 input. -/
theorem C2_amended_witness :
    ∃ l, downloadMerged (fun _ => [270]) [⟨0, "c", 0, [3], 180⟩] = some l ∧
      l[0]? = some (some (copyPage (fun _ => [270])
        (groupBytes [⟨0, "c", 0, [3], 180⟩] ⟨0, "c", 0, [3], 180⟩)
        (⟨0, "c", 0, [3], 180⟩ : PageRecord))) ∧
      (copyPage (fun _ => [270])
        (groupBytes [⟨0, "c", 0, [3], 180⟩] ⟨0, "c", 0, [3], 180⟩)
        (⟨0, "c", 0, [3], 180⟩ : PageRecord)).outRotation
        = ((fun _ : List Nat => [(270 : Int)])
            (groupBytes [⟨0, "c", 0, [3], 180⟩] ⟨0, "c", 0, [3], 180⟩)).getD
              (PageRecord.mk 0 "c" 0 [3] 180).sourcePageIndex 0
          + ((PageRecord.mk 0 "c" 0 [3] 180).rotation : Int) :=
  C2_amended_rotation (fun _ => [270]) [⟨0, "c", 0, [3], 180⟩] 0
    ⟨0, "c", 0, [3], 180⟩ (by decide) (by decide)

/-- Claim C2 (counterexample): the code sets the output rotation to the raw
sum existingPageRotation + record.rotation, with no mod-360 reduction.  A
source page carrying rotation 270 combined with an applied rotation of 180
yields an output rotation of 450, not (270 + 180) mod 360 = 90. -/
theorem C2_counterexample :
    downloadMerged (fun _ => [270]) [⟨0, "c", 0, [3], 180⟩]
      = some [some ⟨[3], 0, 450⟩] ∧
    ((450 : Int) ≠ ((270 : Int) + 180) % 360) := by
  constructor
  · rfl
  · decide
